import Mathlib

/-!
Verification of the Region Extraction and Tabular Reconstruction Pipeline
of the OCR_Program repository.

The Python sources are shallowly embedded: strings are lists of
characters, images are lists of pixel rows, the spreadsheet is a
function from (row, column) to an optional cell value, and the OCR
backend is abstracted as a function from a region to the text the
recognizer returned for it.  Every definition mirrors one place in the
source tree (named in its doc comment); definitions that follow the
wording of the specification instead (for refinement comparisons) say so
explicitly.
-/

/-- Python strings, embedded as lists of characters. -/
abbrev Str := List Char

/-- Literal helper: the character list of a Lean string literal. -/
def str (s : String) : Str := s.data

/-- The ASCII whitespace characters recognized by Python str.strip(). -/
def isPySpace (c : Char) : Bool :=
  c = ' ' || c = '\t' || c = '\n' || c = '\r' ||
    c = Char.ofNat 11 || c = Char.ofNat 12

/-- Python str.strip(): remove whitespace from both ends. -/
def pyStrip (s : Str) : Str :=
  ((s.dropWhile isPySpace).reverse.dropWhile isPySpace).reverse

/-- Whether the second list is an initial segment of the first argument
list; helper for the substring test below. -/
def leadsWith (needle hay : Str) : Bool :=
  match needle, hay with
  | [], _ => true
  | _ :: _, [] => false
  | c :: cs, d :: ds => c = d && leadsWith cs ds

/-- Python substring membership: ex in cleaned tests whether ex occurs
contiguously inside cleaned (the empty string occurs in everything). -/
def containsSub (hay needle : Str) : Bool :=
  match hay with
  | [] => needle.isEmpty
  | _ :: t => leadsWith needle hay || containsSub t needle

/-- Helper for pySplitlines: cur holds the reversed current line. -/
def splitAux : Str → Str → List Str
  | [], cur => [cur.reverse]
  | '\r' :: '\n' :: rest, cur =>
      if rest.isEmpty then [cur.reverse] else cur.reverse :: splitAux rest []
  | '\n' :: rest, cur =>
      if rest.isEmpty then [cur.reverse] else cur.reverse :: splitAux rest []
  | '\r' :: rest, cur =>
      if rest.isEmpty then [cur.reverse] else cur.reverse :: splitAux rest []
  | c :: rest, cur => splitAux rest (c :: cur)

/-- Python str.splitlines() for the line terminators produced by the OCR
backend (LF, CR, CRLF); the empty string yields no lines and a trailing
terminator does not produce an empty final line. -/
def pySplitlines : Str → List Str
  | [] => []
  | s => splitAux s []

/-- core/models.py, class ROI: a named rectangle in page-pixel
coordinates with a tolerance padding and a field type of either
"single" or "table". -/
structure ROI where
  name : Str
  x : Nat
  y : Nat
  w : Nat
  h : Nat
  tolerance : Nat
  field_type : Str
deriving DecidableEq

/-- core/models.py, class ExclusionRule: a target field, the text whose
occurrence triggers exclusion, and the linked field names meant to be
blanked together with the target. -/
structure ExclusionRule where
  target_field : Str
  exclude_text : Str
  linked_fields : List Str
deriving DecidableEq

/-- ui/tab_extract.py line 217: a recognized value is blanked when any
exclusion string occurs in it as a substring, otherwise kept. -/
def filter_value (cleaned : Str) (exSet : List Str) : Str :=
  if exSet.any (fun ex => containsSub cleaned ex) then [] else cleaned

/-- ui/tab_extract.py lines 216-217 for one value: the value recorded
for a single field is its stripped text passed through the exclusion
filter. -/
def recordedValue (txt : Str) (exSet : List Str) : Str :=
  filter_value (pyStrip txt) exSet

/-- ui/tab_extract.py lines 213-217: per page, the values of all regions
are gathered into a name-keyed association list, each value stripped and
passed through the global exclusion filter.  The argument page gives the
raw recognizer text of each region on this page. -/
def gatherPageData (rois : List ROI) (page : ROI → Str) (exSet : List Str) :
    List (Str × Str) :=
  rois.map (fun roi => (roi.name, recordedValue (page roi) exSet))

/-- A page image: a list of pixel rows (core/ocr_engine.py works on PIL
images; width and height are read off the pixel grid). -/
structure Img where
  rows : List (List Nat)
deriving DecidableEq

/-- PIL Image.width of the embedded pixel grid. -/
def Img.width (im : Img) : Nat := (im.rows.headD []).length

/-- PIL Image.height of the embedded pixel grid. -/
def Img.height (im : Img) : Nat := im.rows.length

/-- Every pixel row has the image's width. -/
def Img.Uniform (im : Img) : Prop := ∀ row ∈ im.rows, row.length = im.width

/-- PIL Image.crop((x0, y0, x1, y1)) for a box inside the image: the
rectangular slice of rows y0..y1 and columns x0..x1. -/
def cropImg (im : Img) (x0 y0 x1 y1 : Nat) : Img :=
  ⟨((im.rows.drop y0).take (y1 - y0)).map (fun row => (row.drop x0).take (x1 - x0))⟩

/-- core/ocr_engine.py lines 76-80 (OCREngine.extract_roi): the crop for
single-field recognition expands the region by the tolerance on every
side and clamps at the page bounds. -/
def extract_roi_crop (im : Img) (x y w h tol : Nat) : Img :=
  cropImg im (x - tol) (y - tol) (min im.width (x + w + tol)) (min im.height (y + h + tol))

/-- core/ocr_engine.py line 105 (OCREngine.extract_table): the crop for
table recognition takes the bare rectangle; no tolerance argument exists
and no clamping is applied. -/
def extract_table_crop (im : Img) (x y w h : Nat) : Img :=
  cropImg im x y (x + w) (y + h)

/-- One recognized token of a table region: its text and the left and
top pixel coordinates reported by the recognizer
(core/ocr_engine.py lines 117-124). -/
structure Tok where
  text : Str
  left : Int
  top : Int
deriving DecidableEq

/-- core/ocr_engine.py line 124: rows.setdefault(top, []).append(cell)
on an insertion-ordered dictionary, embedded as an association list:
append the cell to the entry of this top, or add a new entry at the
end. -/
def addCell (rows : List (Int × List (Int × Str))) (top : Int) (cell : Int × Str) :
    List (Int × List (Int × Str)) :=
  match rows with
  | [] => [(top, [cell])]
  | (k, cs) :: rest =>
      if k = top then (k, cs ++ [cell]) :: rest else (k, cs) :: addCell rest top cell

/-- core/ocr_engine.py lines 117-124, one loop iteration: strip the
token text, skip it when empty, otherwise file (left, text) under the
token's raw top coordinate. -/
def tokStep (rows : List (Int × List (Int × Str))) (t : Tok) :
    List (Int × List (Int × Str)) :=
  let txt := pyStrip t.text
  if txt = [] then rows else addCell rows t.top (t.left, txt)

/-- core/ocr_engine.py lines 115-124: the whole grouping loop over the
recognizer's token list. -/
def buildRows (toks : List Tok) : List (Int × List (Int × Str)) :=
  toks.foldl tokStep []

/-- Dictionary access rows[top] on the association list. -/
def lookupRow (rows : List (Int × List (Int × Str))) (k : Int) : List (Int × Str) :=
  match rows with
  | [] => []
  | (q, cs) :: rest => if q = k then cs else lookupRow rest k

/-- The comparison Python sorted uses on the integer row keys. -/
def intLE (a b : Int) : Bool := decide (a ≤ b)

/-- The comparison of sorted(rows[top], key=lambda x: x[0]): cells are
ordered by their left coordinate. -/
def cellLE (a b : Int × Str) : Bool := decide (a.1 ≤ b.1)

/-- core/ocr_engine.py lines 114-129 (OCREngine.extract_table), the
token-to-grid reconstruction: group kept tokens by raw top, emit the
groups in ascending top order, each group stably sorted by left and
projected to its texts.  List.mergeSort is a stable sort, as Python's
sorted is. -/
def extract_table (toks : List Tok) : List (List Str) :=
  let rows := buildRows toks
  ((rows.map Prod.fst).mergeSort intLE).map
    (fun top => ((lookupRow rows top).mergeSort cellLE).map Prod.snd)

/-- Following the wording of the specification (section 4.3): the
surviving cells of a token list, each as (top, left, stripped text),
tokens with empty stripped text discarded. -/
def keptCells (toks : List Tok) : List (Int × Int × Str) :=
  toks.filterMap (fun t =>
    let txt := pyStrip t.text
    if txt = [] then none else some (t.top, t.left, txt))

/-- Following the wording of the specification: the distinct top
coordinates of the surviving tokens in ascending order. -/
def specTops (toks : List Tok) : List Int :=
  (((keptCells toks).map Prod.fst).dedup).mergeSort intLE

/-- Following the wording of the specification: the (left, text) cells
whose token has exactly the given top coordinate, in input order. -/
def specRowCells (toks : List Tok) (k : Int) : List (Int × Str) :=
  ((keptCells toks).filter (fun c => c.1 = k)).map (fun c => c.2)

/-- Following the wording of the specification (section 4.3): one row
per distinct top, rows ascending by top, cells within a row ascending by
left. -/
def reconstructSpec (toks : List Tok) : List (List Str) :=
  (specTops toks).map (fun k => ((specRowCells toks k).mergeSort cellLE).map Prod.snd)

/-- Association-list lookup with default, for the Python dictionaries
mapping (ROI name to column letter) and data (ROI name to value) in
ui/tab_extract.py run_conversion. -/
def lookupD (assoc : List (Str × Str)) (key : Str) (d : Str) : Str :=
  match assoc with
  | [] => d
  | (k, v) :: rest => if k = key then v else lookupD rest key d

/-- The bijective base-26 value of a column letter string
(A is 1, Z is 26, AA is 27, and so on). -/
def colLetterVal (s : Str) : Nat :=
  s.foldl (fun acc c => acc * 26 + (c.toNat - 64)) 0

/-- Modelled from the openpyxl library used at ui/tab_extract.py lines
184 and 206: column_index_from_string answers from a cache built for
columns 1 to 18278, so exactly the strings of one to three uppercase
letters resolve; any other string raises ValueError, embedded as
none. -/
def column_index_from_string (s : Str) : Option Nat :=
  if s ≠ [] ∧ s.length ≤ 3 ∧ s.all (fun c => decide ('A' ≤ c ∧ c ≤ 'Z')) then
    some (colLetterVal s)
  else none

/-- Column resolution as the already-validated loop body uses it. -/
def resolveCol (s : Str) : Nat := (column_index_from_string s).getD 0

/-- The target worksheet: openpyxl's max_row together with the cell
contents; a cell holds none where openpyxl reports value None. -/
structure Sheet where
  maxRow : Nat
  cell : Nat → Nat → Option Str

/-- ui/tab_extract.py line 189: a cell counts as occupied when its value
is neither None nor the empty string. -/
def cellNonEmpty (sheet : Sheet) (r c : Nat) : Bool :=
  match sheet.cell r c with
  | none => false
  | some v => !v.isEmpty

/-- ui/tab_extract.py lines 187-191: scan the rows from the given bound
down to 1 and return the first (hence highest) row whose cell in this
column is occupied, or 0 when none is. -/
def scanLast (sheet : Sheet) (c : Nat) : Nat → Nat
  | 0 => 0
  | r + 1 => if cellNonEmpty sheet (r + 1) c then r + 1 else scanLast sheet c r

/-- The last occupied row of one column, scanning from max_row. -/
def lastDataRow (sheet : Sheet) (c : Nat) : Nat := scanLast sheet c sheet.maxRow

/-- ui/tab_extract.py lines 184-193: the starting output row is one
more than the largest last-occupied row over the mapped columns
(max with default 0 for an empty mapping). -/
def computeStartRow (sheet : Sheet) (cols : List Nat) : Nat :=
  ((cols.map (lastDataRow sheet)).foldl max 0) + 1

/-- A sheet is well formed when row 0 (which Excel does not have) and
every row beyond max_row are unoccupied, as openpyxl guarantees. -/
def Sheet.WF (sheet : Sheet) : Prop :=
  ∀ r c, (r = 0 ∨ sheet.maxRow < r) → cellNonEmpty sheet r c = false

/-- Following the wording of the claim: n is the highest row index
holding a non-empty value in column c, taken as 0 for a column with no
non-empty cell. -/
def isHighestDataRow (sheet : Sheet) (c n : Nat) : Prop :=
  (n = 0 ∧ ∀ r, cellNonEmpty sheet r c = false) ∨
    (cellNonEmpty sheet n c = true ∧ ∀ r, n < r → cellNonEmpty sheet r c = false)

/-- One spreadsheet write: row, column index, value. -/
abbrev CellWrite := Nat × Nat × Str

/-- ui/tab_extract.py lines 198-223, the body of the page loop: when
the set consists of table regions only, the first table region's text is
split into lines and each line is written on its own row in that
region's mapped column, advancing the cursor by the number of lines;
otherwise all regions are gathered as single stripped-and-filtered
values, one row is written through the mapping, and the cursor advances
by one.  The argument page abstracts extract_roi's recognizer output
(already stripped once) per region. -/
def processPage (rois : List ROI) (mapping : List (Str × Str)) (exSet : List Str)
    (page : ROI → Str) (row : Nat) : List CellWrite × Nat :=
  let table_rois := rois.filter (fun r => r.field_type = str "table")
  match table_rois, rois.length == table_rois.length with
  | r :: _, true =>
      let lines := pySplitlines (pyStrip (pyStrip (page r)))
      let c := resolveCol (lookupD mapping r.name [])
      (lines.enum.map (fun p => (row + p.1, c, p.2)), row + lines.length)
  | _, _ =>
      let data := gatherPageData rois page exSet
      (mapping.map (fun p => (row, resolveCol p.2, lookupD data p.1 [])), row + 1)

/-- ui/tab_extract.py lines 196-224: the page loop over all documents
and pages, threading the row cursor and accumulating the writes in
order. -/
def processPages (rois : List ROI) (mapping : List (Str × Str)) (exSet : List Str)
    (pages : List (ROI → Str)) (row : Nat) : List CellWrite × Nat :=
  pages.foldl (fun acc page =>
    let res := processPage rois mapping exSet page acc.2
    (acc.1 ++ res.1, res.2)) ([], row)

/-- ui/tab_extract.py line 184: the list comprehension resolving every
mapped column letter; the first invalid letter raises ValueError there,
embedded as an error carrying that letter. -/
def checkCols : List Str → Except Str (List Nat)
  | [] => Except.ok []
  | s :: rest =>
      match column_index_from_string s with
      | none => Except.error s
      | some i =>
          match checkCols rest with
          | Except.error e => Except.error e
          | Except.ok is => Except.ok (i :: is)

/-- ui/tab_extract.py lines 176-224 (TabExtract.run_conversion), the
part after mapping entry: resolve all mapped columns (aborting on the
first invalid one before any write), compute the starting row from the
sheet, then run the page loop.  Returns the writes and the final
cursor. -/
def run_conversion (rois : List ROI) (mapping : List (Str × Str)) (exSet : List Str)
    (sheet : Sheet) (pages : List (ROI → Str)) : Except Str (List CellWrite × Nat) :=
  match checkCols (mapping.map Prod.snd) with
  | Except.error e => Except.error e
  | Except.ok cols =>
      Except.ok (processPages rois mapping exSet pages (computeStartRow sheet cols))

/-- Following the wording of the claim for all-table region sets: the
writes of successive pages, one row per line, all in the single column
c, each page's block starting where the previous one ended. -/
def tableBlockWrites (c : Nat) (lineLists : List (List Str)) (row : Nat) :
    List CellWrite :=
  match lineLists with
  | [] => []
  | ls :: rest =>
      ls.enum.map (fun p => (row + p.1, c, p.2)) ++ tableBlockWrites c rest (row + ls.length)

/-- The exclusion rule of the claimed cascading scenario. -/
def c2rule : ExclusionRule := ⟨str "품명", str "견적", [str "수량"]⟩

/-- The 품명 region of the cascading scenario. -/
def c2roiA : ROI := ⟨str "품명", 0, 0, 1, 1, 0, str "single"⟩

/-- The 수량 region of the cascading scenario. -/
def c2roiB : ROI := ⟨str "수량", 0, 2, 1, 1, 0, str "single"⟩

/-- The page of the cascading scenario: 품명 reads 견적서 and 수량
reads 10. -/
def c2page : ROI → Str :=
  fun roi => if roi.name = str "품명" then str "견적서" else str "10"

/-- A 20 by 20 page image for the crop counterexample. -/
def c7img : Img := ⟨List.replicate 20 (List.replicate 20 0)⟩

/-- A table region with a positive tolerance. -/
def c7roi : ROI := ⟨str "표", 5, 5, 5, 5, 2, str "table"⟩

/-- The sheet of the claim's instance: column 1 occupied through row 5,
column 2 through row 3. -/
def c1sheet : Sheet :=
  ⟨5, fun r c =>
    if c = 1 ∧ 1 ≤ r ∧ r ≤ 5 then some (str "x")
    else if c = 2 ∧ 1 ≤ r ∧ r ≤ 3 then some (str "x") else none⟩

/-- A 4-row, 5-column page image for the crop witness. -/
def c3img : Img := ⟨List.replicate 4 (List.replicate 5 0)⟩

/-- A table region for the cursor-advance counterexample. -/
def c8roi : ROI := ⟨str "표", 0, 0, 1, 1, 0, str "table"⟩

/-- Two same-cell tokens in one order. -/
def c5toksA : List Tok := [⟨str "a", 0, 0⟩, ⟨str "b", 0, 0⟩]

/-- The same two tokens in the other order. -/
def c5toksB : List Tok := [⟨str "b", 0, 0⟩, ⟨str "a", 0, 0⟩]

/-- Tokens with distinct lefts in one row, listed out of order. -/
def c5toksC : List Tok := [⟨str "b", 1, 0⟩, ⟨str "a", 0, 0⟩]

/-- The same tokens in the other order. -/
def c5toksD : List Tok := [⟨str "a", 0, 0⟩, ⟨str "b", 1, 0⟩]

theorem leadsWith_iff (needle hay : Str) :
    leadsWith needle hay = true ↔ ∃ rest, hay = needle ++ rest := by
  induction needle generalizing hay with
  | nil => simp [leadsWith]
  | cons c cs ih =>
      cases hay with
      | nil => simp [leadsWith]
      | cons d ds =>
          simp only [leadsWith, Bool.and_eq_true, decide_eq_true_eq, ih,
            List.cons_append, List.cons.injEq]
          constructor
          · rintro ⟨rfl, rest, rfl⟩
            exact ⟨rest, rfl, rfl⟩
          · rintro ⟨rest, rfl, rfl⟩
            exact ⟨rfl, rest, rfl⟩

theorem containsSub_iff (hay needle : Str) :
    containsSub hay needle = true ↔ ∃ p q, hay = p ++ needle ++ q := by
  induction hay with
  | nil =>
      simp only [containsSub, List.isEmpty_iff]
      constructor
      · rintro rfl
        exact ⟨[], [], rfl⟩
      · rintro ⟨p, q, h⟩
        rcases List.append_eq_nil.mp h.symm with ⟨h1, h2⟩
        exact (List.append_eq_nil.mp h1).2
  | cons c t ih =>
      simp only [containsSub, Bool.or_eq_true, leadsWith_iff, ih]
      constructor
      · rintro (⟨rest, h⟩ | ⟨p, q, h⟩)
        · exact ⟨[], rest, by simpa using h⟩
        · exact ⟨c :: p, q, by simp [h]⟩
      · rintro ⟨p, q, h⟩
        cases p with
        | nil => exact Or.inl ⟨q, by simpa using h⟩
        | cons x xs =>
            right
            refine ⟨xs, q, ?_⟩
            have h2 := h
            simp only [List.cons_append] at h2
            exact (List.cons.injEq .. ▸ h2 : _ ∧ _).2

/-- C6: for every single-field recognized value and every exclusion set,
the recorded value after filtering is the empty string if the trimmed
value contains some string of the exclusion set as a substring, and is
the trimmed value unchanged otherwise. -/
theorem exclusion_filter_c6 (txt : Str) (exSet : List Str) :
    ((∃ ex ∈ exSet, ∃ p q, pyStrip txt = p ++ ex ++ q) →
      recordedValue txt exSet = []) ∧
    ((¬ ∃ ex ∈ exSet, ∃ p q, pyStrip txt = p ++ ex ++ q) →
      recordedValue txt exSet = pyStrip txt) := by
  constructor
  · rintro ⟨ex, hex, p, q, heq⟩
    have hany : exSet.any (fun e => containsSub (pyStrip txt) e) = true :=
      List.any_eq_true.mpr ⟨ex, hex, (containsSub_iff _ _).mpr ⟨p, q, heq⟩⟩
    simp [recordedValue, filter_value, hany]
  · intro hno
    have hany : exSet.any (fun e => containsSub (pyStrip txt) e) = false := by
      rw [Bool.eq_false_iff]
      intro hc
      rcases List.any_eq_true.mp hc with ⟨ex, hex, hsub⟩
      exact hno ⟨ex, hex, (containsSub_iff _ _).mp hsub⟩
    simp [recordedValue, filter_value, hany]

/-- Witness for C6: a value containing the exclusion string 견적 is
blanked, a value free of it is kept as its stripped text. -/
theorem exclusion_filter_c6_witness :
    recordedValue (str " 견적서 ") [str "견적"] = [] ∧
    recordedValue (str "수량10") [str "견적"] = pyStrip (str "수량10") := by
  constructor
  · exact (exclusion_filter_c6 (str " 견적서 ") [str "견적"]).1
      ⟨str "견적", by decide, [], str "서", by decide⟩
  · refine (exclusion_filter_c6 (str "수량10") [str "견적"]).2 ?_
    rintro ⟨ex, hex, p, q, heq⟩
    have hx : ex = str "견적" := by simpa using hex
    subst hx
    exact absurd ((containsSub_iff _ _).mpr ⟨p, q, heq⟩) (by decide)

/-- Counterexample to C2: with the rule of the claim in force as the
exclusion string 견적, the page values 품명 = 견적서 and 수량 = 10 are
filtered to 품명 = empty but 수량 = 10: the linked field named by the
rule keeps its value, it is not blanked as claimed. -/
theorem exclusion_cascade_c2_counterexample :
    c2rule.linked_fields = [str "수량"] ∧
    gatherPageData [c2roiA, c2roiB] c2page [c2rule.exclude_text] =
      [(str "품명", []), (str "수량", str "10")] ∧
    (str "10" : Str) ≠ [] := by decide

/-- C2 amended: the per-page filtering consults only each field's own
recognized text against the global exclusion strings; a field whose own
trimmed value matches no exclusion string keeps that trimmed value in
the gathered page data, no matter what any other field (such as an
exclusion rule's target) contains, so declared linked fields are never
blanked by a match elsewhere. -/
theorem exclusion_cascade_c2_amended (rois : List ROI) (page : ROI → Str)
    (exSet : List Str) (roi : ROI) (h : roi ∈ rois)
    (hno : ∀ ex ∈ exSet, containsSub (pyStrip (page roi)) ex = false) :
    (roi.name, pyStrip (page roi)) ∈ gatherPageData rois page exSet := by
  have hany : exSet.any (fun ex => containsSub (pyStrip (page roi)) ex) = false := by
    rw [Bool.eq_false_iff]
    intro hc
    rcases List.any_eq_true.mp hc with ⟨ex, hex, hsub⟩
    rw [hno ex hex] at hsub
    cases hsub
  have hval : recordedValue (page roi) exSet = pyStrip (page roi) := by
    simp [recordedValue, filter_value, hany]
  exact List.mem_map.mpr ⟨roi, h, by rw [hval]⟩

/-- Witness for the amended C2 in the very scenario of the claim: the
수량 field keeps its value 10. -/
theorem exclusion_cascade_c2_witness :
    (c2roiB.name, pyStrip (c2page c2roiB)) ∈
      gatherPageData [c2roiA, c2roiB] c2page [str "견적"] :=
  exclusion_cascade_c2_amended [c2roiA, c2roiB] c2page [str "견적"] c2roiB
    (by decide) (by decide)

/-- Counterexample to C7: for a table region with tolerance 2 on a 20 by
20 page, the crop taken by extract_table is not the tolerance-expanded
crop: extract_table ignores the tolerance entirely. -/
theorem crop_tolerance_c7_counterexample :
    c7roi.tolerance = 2 ∧
    extract_table_crop c7img c7roi.x c7roi.y c7roi.w c7roi.h ≠
      extract_roi_crop c7img c7roi.x c7roi.y c7roi.w c7roi.h c7roi.tolerance := by
  decide

/-- C7 amended: only single-field recognition (extract_roi) expands the
crop by the tolerance and clamps at the page bounds; extract_table crops
the bare region rectangle with no tolerance and no clamping, which for a
region lying inside the page coincides with a zero-tolerance clamped
crop. -/
theorem crop_tolerance_c7_amended (im : Img) (x y w h : Nat)
    (hx : x + w ≤ im.width) (hy : y + h ≤ im.height) :
    extract_table_crop im x y w h = extract_roi_crop im x y w h 0 := by
  simp [extract_table_crop, extract_roi_crop, Nat.sub_zero, Nat.add_zero,
    min_eq_right hx, min_eq_right hy]

/-- Witness for the amended C7 at a concrete region inside the page. -/
theorem crop_tolerance_c7_witness :
    2 + 3 ≤ c7img.width ∧
    extract_table_crop c7img 2 2 3 3 = extract_roi_crop c7img 2 2 3 3 0 :=
  ⟨by decide, crop_tolerance_c7_amended c7img 2 2 3 3 (by decide) (by decide)⟩

theorem checkCols_error_of_invalid (cols : List Str)
    (h : ∃ s ∈ cols, column_index_from_string s = none) :
    ∃ e, checkCols cols = Except.error e := by
  induction cols with
  | nil => rcases h with ⟨s, hs, _⟩; cases hs
  | cons s rest ih =>
      rcases h with ⟨t, ht, hnone⟩
      rcases List.mem_cons.mp ht with rfl | htr
      · exact ⟨t, by simp [checkCols, hnone]⟩
      · cases hcase : column_index_from_string s with
        | none => exact ⟨s, by simp [checkCols, hcase]⟩
        | some i =>
            rcases ih ⟨t, htr, hnone⟩ with ⟨e, he⟩
            exact ⟨e, by simp [checkCols, hcase, he]⟩

/-- C9: whenever some mapped target column string is invalid (resolves
to no column index), the whole run returns an error, whatever the
documents contain: the mapping list is validated up front, before any
page is processed and before any cell write is produced, and the
unresolved mapping is never silently skipped. -/
theorem mapping_validation_c9 (rois : List ROI) (mapping : List (Str × Str))
    (exSet : List Str) (sheet : Sheet) (pages : List (ROI → Str))
    (h : ∃ p ∈ mapping, column_index_from_string p.2 = none) :
    ∃ e, run_conversion rois mapping exSet sheet pages = Except.error e := by
  have hcols : ∃ s ∈ mapping.map Prod.snd, column_index_from_string s = none := by
    rcases h with ⟨p, hp, hnone⟩
    exact ⟨p.2, List.mem_map.mpr ⟨p, hp, rfl⟩, hnone⟩
  rcases checkCols_error_of_invalid _ hcols with ⟨e, he⟩
  exact ⟨e, by simp [run_conversion, he]⟩

/-- Witness for C9: the mapping entry with column text A1 (a letter
followed by a digit, which openpyxl rejects) makes the run fail before
any write, for an arbitrary sheet and no documents at all. -/
theorem mapping_validation_c9_witness :
    ∃ e, run_conversion [] [(str "품명", str "A1")] [] ⟨0, fun _ _ => none⟩ [] =
      Except.error e :=
  mapping_validation_c9 [] [(str "품명", str "A1")] [] ⟨0, fun _ _ => none⟩ []
    ⟨(str "품명", str "A1"), by decide, by decide⟩

theorem scanLast_spec (sheet : Sheet) (c n : Nat) :
    (scanLast sheet c n = 0 ∨ cellNonEmpty sheet (scanLast sheet c n) c = true) ∧
    (∀ r, scanLast sheet c n < r → r ≤ n → cellNonEmpty sheet r c = false) := by
  induction n with
  | zero => exact ⟨Or.inl rfl, fun r h1 h2 => by omega⟩
  | succ m ih =>
      by_cases hc : cellNonEmpty sheet (m + 1) c = true
      · have hs : scanLast sheet c (m + 1) = m + 1 := by simp [scanLast, hc]
        refine ⟨Or.inr (by rw [hs]; exact hc), ?_⟩
        intro r h1 h2
        rw [hs] at h1
        omega
      · have hc2 : cellNonEmpty sheet (m + 1) c = false := by
          simpa using hc
        have hs : scanLast sheet c (m + 1) = scanLast sheet c m := by
          simp [scanLast, hc2]
        refine ⟨hs ▸ ih.1, ?_⟩
        intro r h1 h2
        rw [hs] at h1
        rcases Nat.lt_or_ge r (m + 1) with hlt | hge
        · exact ih.2 r h1 (by omega)
        · have hr : r = m + 1 := by omega
          exact hr ▸ hc2

/-- C1: on a well-formed sheet the computed starting row is one more
than the maximum, over the mapped columns, of each column's highest row
holding a non-empty value (0 for a column with no non-empty cell): the
downward scan really finds that highest occupied row. -/
theorem start_row_c1 (sheet : Sheet) (cols : List Nat) (hwf : Sheet.WF sheet) :
    computeStartRow sheet cols = ((cols.map (lastDataRow sheet)).foldl max 0) + 1 ∧
    ∀ c ∈ cols, isHighestDataRow sheet c (lastDataRow sheet c) := by
  refine ⟨rfl, ?_⟩
  intro c _
  have h := scanLast_spec sheet c sheet.maxRow
  rcases h.1 with h0 | hocc
  · left
    refine ⟨h0, ?_⟩
    intro r
    rcases Nat.lt_or_ge sheet.maxRow r with hgt | hle
    · exact hwf r c (Or.inr hgt)
    · rcases Nat.eq_zero_or_pos r with rfl | hpos
      · exact hwf 0 c (Or.inl rfl)
      · exact h.2 r (by omega) hle
  · right
    refine ⟨hocc, ?_⟩
    intro r hr
    rcases Nat.lt_or_ge sheet.maxRow r with hgt | hle
    · exact hwf r c (Or.inr hgt)
    · exact h.2 r hr hle

/-- Witness for C1: with column 1 occupied through row 5 and column 2
through row 3, the computed starting row is 6. -/
theorem start_row_c1_witness :
    Sheet.WF c1sheet ∧ computeStartRow c1sheet [1, 2] = 6 := by
  have hwf : Sheet.WF c1sheet := by
    intro r c hr
    have hm : c1sheet.maxRow = 5 := rfl
    rw [hm] at hr
    have h1 : ¬(c = 1 ∧ 1 ≤ r ∧ r ≤ 5) := by omega
    have h2 : ¬(c = 2 ∧ 1 ≤ r ∧ r ≤ 3) := by omega
    simp [cellNonEmpty, c1sheet, h1, h2]
  refine ⟨hwf, ?_⟩
  rw [(start_row_c1 c1sheet [1, 2] hwf).1]
  decide

/-- C3: the single-field crop is the slice from max(0, x - t) and
max(0, y - t) to min(page width, x + w + t) and min(page height,
y + h + t), so its width and height are exactly the differences of those
clamped bounds (stated over a uniform pixel grid for a region whose
expanded box meets the page). -/
theorem crop_bounds_c3 (im : Img) (x y w h t : Nat) (hu : Img.Uniform im)
    (hx : x - t ≤ im.width) (hy : y - t < min im.height (y + h + t)) :
    ((extract_roi_crop im x y w h t).height : Int) =
        min (im.height : Int) ((y : Int) + (h : Int) + (t : Int)) -
          max 0 ((y : Int) - (t : Int)) ∧
    ((extract_roi_crop im x y w h t).width : Int) =
        min (im.width : Int) ((x : Int) + (w : Int) + (t : Int)) -
          max 0 ((x : Int) - (t : Int)) := by
  have hH : im.rows.length = im.height := rfl
  constructor
  · have hh : (extract_roi_crop im x y w h t).height =
        min (min im.height (y + h + t) - (y - t)) (im.rows.length - (y - t)) := by
      simp [extract_roi_crop, cropImg, Img.height, List.length_take, List.length_drop]
    rw [hh, hH]
    omega
  · have hpos : 0 < ((im.rows.drop (y - t)).take (min im.height (y + h + t) - (y - t))).length := by
      rw [List.length_take, List.length_drop, hH]
      omega
    obtain ⟨r0, rs, hcons⟩ :=
      List.exists_cons_of_ne_nil (List.length_pos.mp hpos)
    have hmem : r0 ∈ im.rows := by
      have hmem0 : r0 ∈ (im.rows.drop (y - t)).take (min im.height (y + h + t) - (y - t)) :=
        hcons ▸ List.mem_cons_self r0 rs
      exact List.Sublist.mem hmem0 ((List.take_sublist _ _).trans (List.drop_sublist _ _))
    have hrw : r0.length = im.width := hu r0 hmem
    have hwidth : (extract_roi_crop im x y w h t).width =
        min (min im.width (x + w + t) - (x - t)) (r0.length - (x - t)) := by
      simp [extract_roi_crop, cropImg, Img.width, hcons, List.length_take, List.length_drop]
    rw [hwidth, hrw]
    omega

/-- Witness for C3: the region (1, 1, 2, 1) with tolerance 1 on a 5 by 4
page crops to a 4 by 3 slice, matching the clamped formulas. -/
theorem crop_bounds_c3_witness :
    Img.Uniform c3img ∧
    ((extract_roi_crop c3img 1 1 2 1 1).height : Int) = 3 ∧
    ((extract_roi_crop c3img 1 1 2 1 1).width : Int) = 4 := by
  have hu : Img.Uniform c3img := by
    intro row hrow
    rw [List.eq_of_mem_replicate hrow]
    rfl
  have H := crop_bounds_c3 c3img 1 1 2 1 1 hu (by decide) (by decide)
  exact ⟨hu, by rw [H.1]; decide, by rw [H.2]; decide⟩

theorem processPage_all_table (rois : List ROI) (mapping : List (Str × Str))
    (exSet : List Str) (page : ROI → Str) (row : Nat) (r0 : ROI) (rest : List ROI)
    (hrois : rois = r0 :: rest)
    (hall : ∀ r ∈ rois, r.field_type = str "table") :
    processPage rois mapping exSet page row =
      ((pySplitlines (pyStrip (pyStrip (page r0)))).enum.map
          (fun p => (row + p.1, resolveCol (lookupD mapping r0.name []), p.2)),
        row + (pySplitlines (pyStrip (pyStrip (page r0)))).length) := by
  subst hrois
  have hfilter : (r0 :: rest).filter (fun r => r.field_type = str "table") = r0 :: rest :=
    List.filter_eq_self.mpr (fun a ha => decide_eq_true (hall a ha))
  simp only [processPage, hfilter, beq_self_eq_true]

theorem processPage_mixed (rois : List ROI) (mapping : List (Str × Str))
    (exSet : List Str) (page : ROI → Str) (row : Nat) (r : ROI) (hr : r ∈ rois)
    (hne : r.field_type ≠ str "table") :
    processPage rois mapping exSet page row =
      ((mapping.map (fun p =>
          (row, resolveCol p.2, lookupD (gatherPageData rois page exSet) p.1 []))),
        row + 1) := by
  have hlt : (rois.filter (fun r => r.field_type = str "table")).length < rois.length :=
    List.length_filter_lt_length_iff_exists.mpr ⟨r, hr, by simpa using hne⟩
  have hbeq : (rois.length == (rois.filter (fun r => r.field_type = str "table")).length)
      = false :=
    beq_eq_false_iff_ne.mpr (by omega)
  rcases hcase : rois.filter (fun r => r.field_type = str "table") with _ | ⟨a, l⟩
  · rw [hcase] at hbeq
    simp only [processPage, hcase, hbeq]
  · rw [hcase] at hbeq
    simp only [processPage, hcase, hbeq]

/-- Counterexample to C8: on a page whose only (table) region recognizes
empty text, the reconstructed text has zero lines, no cell is written,
and the cursor stays at row 7 instead of advancing by
max(table height, 1) = 1 to row 8: the next page overwrites the same
row. -/
theorem cursor_advance_c8_counterexample :
    processPage [c8roi] [(str "표", str "A")] [] (fun _ => []) 7 = ([], 7) ∧
    (7 : Nat) ≠ 7 + max 0 1 := by decide

/-- C8 amended: when every region of the set is a table region, the
cursor advances by the line count of the first region's recognized text,
which can be zero; in every other case (mixed or single-only sets) the
cursor advances by exactly one row, regardless of any table region, as
table regions are then read as single values. -/
theorem cursor_advance_c8_amended (rois : List ROI) (mapping : List (Str × Str))
    (exSet : List Str) (page : ROI → Str) (row : Nat) :
    ((∀ r ∈ rois, r.field_type = str "table") →
      ∀ r0, rois.head? = some r0 →
        (processPage rois mapping exSet page row).2 =
          row + (pySplitlines (pyStrip (pyStrip (page r0)))).length) ∧
    ((∃ r ∈ rois, r.field_type ≠ str "table") →
      (processPage rois mapping exSet page row).2 = row + 1) := by
  constructor
  · intro hall r0 hr0
    cases rois with
    | nil => cases hr0
    | cons a rest =>
        have ha : a = r0 := by simpa using hr0
        subst ha
        rw [processPage_all_table (a :: rest) mapping exSet page row a rest rfl hall]
  · rintro ⟨r, hr, hne⟩
    rw [processPage_mixed rois mapping exSet page row r hr hne]

/-- Witness for the amended C8: an all-table page with two recognized
lines advances the cursor by 2, and a mixed page advances it by 1. -/
theorem cursor_advance_c8_witness :
    (processPage [c8roi] [(str "표", str "A")] [] (fun _ => str "x\ny") 9).2 =
      9 + (pySplitlines (pyStrip (pyStrip (str "x\ny")))).length ∧
    (processPage [c2roiA, c8roi] [(str "품명", str "A")] [] (fun _ => str "x\ny") 9).2 =
      9 + 1 := by
  constructor
  · exact (cursor_advance_c8_amended [c8roi] [(str "표", str "A")] []
      (fun _ => str "x\ny") 9).1 (by decide) c8roi rfl
  · exact (cursor_advance_c8_amended [c2roiA, c8roi] [(str "품명", str "A")] []
      (fun _ => str "x\ny") 9).2 ⟨c2roiA, by decide, by decide⟩

theorem processPages_all_table (rois : List ROI) (mapping : List (Str × Str))
    (exSet : List Str) (r0 : ROI) (rest : List ROI) (hrois : rois = r0 :: rest)
    (hall : ∀ r ∈ rois, r.field_type = str "table") (pages : List (ROI → Str)) :
    ∀ (row : Nat) (acc : List CellWrite),
      pages.foldl (fun acc page =>
          let res := processPage rois mapping exSet page acc.2
          (acc.1 ++ res.1, res.2)) (acc, row) =
        (acc ++ tableBlockWrites (resolveCol (lookupD mapping r0.name []))
            (pages.map (fun page => pySplitlines (pyStrip (pyStrip (page r0))))) row,
          row + (pages.map (fun page =>
            (pySplitlines (pyStrip (pyStrip (page r0)))).length)).sum) := by
  induction pages with
  | nil => intro row acc; simp [tableBlockWrites]
  | cons pg pgs ih =>
      intro row acc
      have hpg := processPage_all_table rois mapping exSet pg row r0 rest hrois hall
      rw [List.foldl_cons]
      show List.foldl _ (acc ++ (processPage rois mapping exSet pg row).1,
          (processPage rois mapping exSet pg row).2) pgs = _
      rw [hpg]
      rw [ih]
      simp only [List.map_cons, tableBlockWrites, List.sum_cons, List.append_assoc,
        Nat.add_assoc]

/-- C10: when every region of the selected set has field type table,
the entire run's writes are exactly one write per line of the first
region's recognized text on each page, all placed in that single
region's mapped column in consecutive rows, and depend on nothing but
that first region's text: no other region contributes any write. -/
theorem table_only_c10 (rois : List ROI) (mapping : List (Str × Str)) (exSet : List Str)
    (pages : List (ROI → Str)) (row : Nat) (r0 : ROI) (hr0 : rois.head? = some r0)
    (hall : ∀ r ∈ rois, r.field_type = str "table") :
    processPages rois mapping exSet pages row =
      (tableBlockWrites (resolveCol (lookupD mapping r0.name []))
          (pages.map (fun page => pySplitlines (pyStrip (pyStrip (page r0))))) row,
        row + (pages.map (fun page =>
          (pySplitlines (pyStrip (pyStrip (page r0)))).length)).sum) := by
  cases rois with
  | nil => cases hr0
  | cons a rest =>
      have ha : a = r0 := by simpa using hr0
      subst ha
      have h := processPages_all_table (a :: rest) mapping exSet a rest rfl hall pages row []
      simpa [processPages] using h

/-- Witness for C10 on two concrete pages: the first table region's
lines land one per row in its column; the second region contributes
nothing. -/
theorem table_only_c10_witness :
    processPages [c8roi, c7roi] [(str "표", str "B")] [] [fun _ => str "x\ny", fun _ => str "z"] 4 =
      (tableBlockWrites (resolveCol (lookupD [(str "표", str "B")] c8roi.name []))
          ([fun _ => str "x\ny", fun _ => str "z"].map
            (fun page => pySplitlines (pyStrip (pyStrip (page c8roi))))) 4,
        4 + ([fun _ => str "x\ny", fun _ => str "z"].map
          (fun page => (pySplitlines (pyStrip (pyStrip (page c8roi)))).length)).sum) :=
  table_only_c10 [c8roi, c7roi] [(str "표", str "B")] []
    [fun _ => str "x\ny", fun _ => str "z"] 4 c8roi rfl (by decide)

theorem lookupRow_addCell (rows : List (Int × List (Int × Str))) (top : Int)
    (cell : Int × Str) (k : Int) :
    lookupRow (addCell rows top cell) k =
      lookupRow rows k ++ (if k = top then [cell] else []) := by
  induction rows with
  | nil =>
      by_cases h : k = top
      · subst h; simp [addCell, lookupRow]
      · have h2 : ¬top = k := fun h2 => h h2.symm
        simp [addCell, lookupRow, h, h2]
  | cons hd rest ih =>
      obtain ⟨q, cs⟩ := hd
      by_cases hq : q = top
      · subst hq
        by_cases hk : q = k
        · subst hk
          simp [addCell, lookupRow]
        · have hk2 : ¬k = q := fun h2 => hk h2.symm
          simp [addCell, lookupRow, hk, hk2]
      · by_cases hk : q = k
        · subst hk
          have hq2 : ¬q = top := hq
          have hq3 : ¬top = q := fun h2 => hq h2.symm
          simp [addCell, lookupRow, hq2, hq3]
        · simp [addCell, lookupRow, hq, hk, ih]

theorem keys_addCell (rows : List (Int × List (Int × Str))) (top : Int)
    (cell : Int × Str) :
    (addCell rows top cell).map Prod.fst =
      if top ∈ rows.map Prod.fst then rows.map Prod.fst
      else rows.map Prod.fst ++ [top] := by
  induction rows with
  | nil => simp [addCell]
  | cons hd rest ih =>
      obtain ⟨q, cs⟩ := hd
      by_cases hq : q = top
      · subst hq; simp [addCell]
      · have hq2 : ¬top = q := fun h2 => hq h2.symm
        simp only [addCell, if_neg hq, List.map_cons, ih, List.mem_cons]
        by_cases hm : top ∈ rest.map Prod.fst
        · simp [hm, hq2]
        · simp [hm, hq2]

theorem foldl_tokStep_lookup (toks : List Tok) :
    ∀ (rows : List (Int × List (Int × Str))) (k : Int),
      lookupRow (toks.foldl tokStep rows) k =
        lookupRow rows k ++ specRowCells toks k := by
  induction toks with
  | nil => intro rows k; simp [specRowCells, keptCells]
  | cons t ts ih =>
      intro rows k
      rw [List.foldl_cons, ih]
      by_cases ht : pyStrip t.text = []
      · have hstep : tokStep rows t = rows := by simp [tokStep, ht]
        have hspec : specRowCells (t :: ts) k = specRowCells ts k := by
          simp [specRowCells, keptCells, ht]
        rw [hstep, hspec]
      · have hstep : tokStep rows t = addCell rows t.top (t.left, pyStrip t.text) := by
          simp [tokStep, ht]
        have hspec : specRowCells (t :: ts) k =
            (if k = t.top then [(t.left, pyStrip t.text)] else []) ++ specRowCells ts k := by
          by_cases hk : t.top = k
          · subst hk; simp [specRowCells, keptCells, ht]
          · have hk2 : ¬k = t.top := fun h2 => hk h2.symm
            simp [specRowCells, keptCells, ht, hk, hk2]
        rw [hstep, lookupRow_addCell, hspec, List.append_assoc]

theorem foldl_tokStep_keys_mem (toks : List Tok) :
    ∀ (rows : List (Int × List (Int × Str))) (k : Int),
      (k ∈ (toks.foldl tokStep rows).map Prod.fst ↔
        k ∈ rows.map Prod.fst ∨ k ∈ (keptCells toks).map Prod.fst) := by
  induction toks with
  | nil => intro rows k; simp [keptCells]
  | cons t ts ih =>
      intro rows k
      rw [List.foldl_cons, ih]
      by_cases ht : pyStrip t.text = []
      · have hstep : tokStep rows t = rows := by simp [tokStep, ht]
        have hkept : keptCells (t :: ts) = keptCells ts := by simp [keptCells, ht]
        rw [hstep, hkept]
      · have hstep : tokStep rows t = addCell rows t.top (t.left, pyStrip t.text) := by
          simp [tokStep, ht]
        have hkept : keptCells (t :: ts) =
            (t.top, t.left, pyStrip t.text) :: keptCells ts := by
          simp [keptCells, ht]
        rw [hstep, hkept, keys_addCell]
        by_cases hm : t.top ∈ rows.map Prod.fst
        · simp only [if_pos hm, List.map_cons, List.mem_cons]
          constructor
          · rintro (h | h)
            · exact Or.inl h
            · exact Or.inr (Or.inr h)
          · rintro (h | h | h)
            · exact Or.inl h
            · exact Or.inl (by rw [h]; exact hm)
            · exact Or.inr h
        · simp only [if_neg hm, List.map_cons, List.mem_cons, List.mem_append,
            List.mem_singleton]
          tauto

theorem foldl_tokStep_keys_nodup (toks : List Tok) :
    ∀ rows, (rows.map Prod.fst).Nodup →
      ((toks.foldl tokStep rows).map Prod.fst).Nodup := by
  induction toks with
  | nil => intro rows h; simpa using h
  | cons t ts ih =>
      intro rows h
      rw [List.foldl_cons]
      apply ih
      by_cases ht : pyStrip t.text = []
      · have hstep : tokStep rows t = rows := by simp [tokStep, ht]
        rw [hstep]; exact h
      · have hstep : tokStep rows t = addCell rows t.top (t.left, pyStrip t.text) := by
          simp [tokStep, ht]
        rw [hstep, keys_addCell]
        by_cases hm : t.top ∈ rows.map Prod.fst
        · simpa [hm] using h
        · simp only [if_neg hm]
          rw [List.nodup_append]
          exact ⟨h, List.nodup_singleton _, by simpa [List.disjoint_singleton] using hm⟩

theorem intLE_trans_lemma :
    ∀ a b c : Int, intLE a b = true → intLE b c = true → intLE a c = true := by
  intro a b c hab hbc
  simp only [intLE, decide_eq_true_eq] at hab hbc ⊢
  omega

theorem intLE_total_lemma : ∀ a b : Int, (intLE a b || intLE b a) = true := by
  intro a b
  simp only [intLE, Bool.or_eq_true, decide_eq_true_eq]
  omega

theorem cellLE_trans_lemma :
    ∀ a b c : Int × Str, cellLE a b = true → cellLE b c = true → cellLE a c = true := by
  intro a b c hab hbc
  simp only [cellLE, decide_eq_true_eq] at hab hbc ⊢
  omega

theorem cellLE_total_lemma : ∀ a b : Int × Str, (cellLE a b || cellLE b a) = true := by
  intro a b
  simp only [cellLE, Bool.or_eq_true, decide_eq_true_eq]
  omega

theorem sortedInt_eq (l1 l2 : List Int) (hp : l1.Perm l2) :
    l1.mergeSort intLE = l2.mergeSort intLE := by
  have hs1 : List.Sorted (· ≤ ·) (l1.mergeSort intLE) :=
    List.Pairwise.imp (fun hab => by simpa [intLE] using hab)
      (List.sorted_mergeSort intLE_trans_lemma intLE_total_lemma l1)
  have hs2 : List.Sorted (· ≤ ·) (l2.mergeSort intLE) :=
    List.Pairwise.imp (fun hab => by simpa [intLE] using hab)
      (List.sorted_mergeSort intLE_trans_lemma intLE_total_lemma l2)
  exact List.eq_of_perm_of_sorted
    (((List.mergeSort_perm l1 intLE).trans hp).trans (List.mergeSort_perm l2 intLE).symm)
    hs1 hs2

theorem sortedCells_eq (l1 l2 : List (Int × Str)) (hp : l1.Perm l2)
    (hnd : (l1.map Prod.fst).Nodup) :
    l1.mergeSort cellLE = l2.mergeSort cellLE := by
  haveI : IsAntisymm (Int × Str) (fun a b => a.1 < b.1) :=
    ⟨fun a b hab hba => absurd hba (lt_asymm hab)⟩
  have hperm1 : (l1.mergeSort cellLE).Perm l1 := List.mergeSort_perm l1 cellLE
  have hperm2 : (l2.mergeSort cellLE).Perm l2 := List.mergeSort_perm l2 cellLE
  have hs1 : List.Pairwise (fun a b : Int × Str => a.1 ≤ b.1) (l1.mergeSort cellLE) :=
    List.Pairwise.imp (fun hab => by simpa [cellLE] using hab)
      (List.sorted_mergeSort cellLE_trans_lemma cellLE_total_lemma l1)
  have hs2 : List.Pairwise (fun a b : Int × Str => a.1 ≤ b.1) (l2.mergeSort cellLE) :=
    List.Pairwise.imp (fun hab => by simpa [cellLE] using hab)
      (List.sorted_mergeSort cellLE_trans_lemma cellLE_total_lemma l2)
  have hnd1 : ((l1.mergeSort cellLE).map Prod.fst).Nodup :=
    ((hperm1.map Prod.fst).symm).nodup hnd
  have hnd2 : ((l2.mergeSort cellLE).map Prod.fst).Nodup :=
    ((hperm2.map Prod.fst).symm).nodup ((hp.map Prod.fst).nodup hnd)
  have hne1 : List.Pairwise (fun a b : Int × Str => a.1 ≠ b.1) (l1.mergeSort cellLE) :=
    List.pairwise_map.mp hnd1
  have hne2 : List.Pairwise (fun a b : Int × Str => a.1 ≠ b.1) (l2.mergeSort cellLE) :=
    List.pairwise_map.mp hnd2
  have hstrict1 : List.Sorted (fun a b : Int × Str => a.1 < b.1) (l1.mergeSort cellLE) :=
    (hs1.and hne1).imp (fun hab => lt_of_le_of_ne hab.1 hab.2)
  have hstrict2 : List.Sorted (fun a b : Int × Str => a.1 < b.1) (l2.mergeSort cellLE) :=
    (hs2.and hne2).imp (fun hab => lt_of_le_of_ne hab.1 hab.2)
  exact List.eq_of_perm_of_sorted ((hperm1.trans hp).trans hperm2.symm) hstrict1 hstrict2

theorem extract_table_eq_spec (toks : List Tok) :
    extract_table toks = reconstructSpec toks := by
  have hlookup : ∀ k, lookupRow (buildRows toks) k = specRowCells toks k := by
    intro k
    have h := foldl_tokStep_lookup toks [] k
    simpa [buildRows, lookupRow] using h
  have hnodup : ((buildRows toks).map Prod.fst).Nodup :=
    foldl_tokStep_keys_nodup toks [] (by simp)
  have hmem : ∀ k, k ∈ (buildRows toks).map Prod.fst ↔
      k ∈ ((keptCells toks).map Prod.fst).dedup := by
    intro k
    have h := foldl_tokStep_keys_mem toks [] k
    simpa [buildRows, List.mem_dedup] using h
  have hkeysperm : ((buildRows toks).map Prod.fst).Perm
      (((keptCells toks).map Prod.fst).dedup) := by
    apply List.perm_of_nodup_nodup_toFinset_eq hnodup (List.nodup_dedup _)
    apply Finset.ext
    intro a
    simp only [List.mem_toFinset]
    exact hmem a
  have hkeys : ((buildRows toks).map Prod.fst).mergeSort intLE = specTops toks :=
    sortedInt_eq _ _ hkeysperm
  show (((buildRows toks).map Prod.fst).mergeSort intLE).map
      (fun top => ((lookupRow (buildRows toks) top).mergeSort cellLE).map Prod.snd) =
    reconstructSpec toks
  unfold reconstructSpec
  rw [hkeys]
  apply List.map_congr_left
  intro k _
  rw [hlookup k]

/-- C4: table reconstruction discards tokens whose trimmed text is
empty, puts two tokens into the same row exactly when their raw top
values are equal, orders the rows ascending by top and the cells within
each row ascending by left, and yields the empty grid on the empty token
sequence: extract_table coincides with the specification-side
reconstruction built from exactly these clauses. -/
theorem reconstruct_c4 :
    extract_table ([] : List Tok) = [] ∧
    ∀ toks : List Tok, extract_table toks = reconstructSpec toks :=
  ⟨by simp [extract_table, buildRows], extract_table_eq_spec⟩

/-- Counterexample to C5: two tokens sharing both top and left keep
their input order inside the row (Python's sorted is stable), so the two
orderings of the token sequence reconstruct different grids. -/
theorem reconstruct_c5_counterexample :
    c5toksB.Perm c5toksA ∧ extract_table c5toksA ≠ extract_table c5toksB := by
  refine ⟨List.Perm.swap _ _ _, ?_⟩
  have hA : extract_table c5toksA = [[str "a", str "b"]] := by
    simp [extract_table, c5toksA, buildRows, tokStep, addCell, lookupRow,
      List.mergeSort, List.merge, str, pyStrip, isPySpace, intLE, cellLE]
  have hB : extract_table c5toksB = [[str "b", str "a"]] := by
    simp [extract_table, c5toksB, buildRows, tokStep, addCell, lookupRow,
      List.mergeSort, List.merge, str, pyStrip, isPySpace, intLE, cellLE]
  rw [hA, hB]
  decide

/-- C5 amended: table reconstruction is invariant under permutations of
the token sequence provided no two surviving tokens share both their top
and their left coordinate; with such a duplicate position the stable
within-row sort preserves input order and a permutation can swap the
tied cells. -/
theorem reconstruct_c5_amended (toks1 toks2 : List Tok) (hp : toks1.Perm toks2)
    (hnd : ((keptCells toks1).map (fun c => (c.1, c.2.1))).Nodup) :
    extract_table toks1 = extract_table toks2 := by
  rw [extract_table_eq_spec, extract_table_eq_spec]
  have hkept : (keptCells toks1).Perm (keptCells toks2) := hp.filterMap _
  have htops : specTops toks1 = specTops toks2 :=
    sortedInt_eq _ _ ((hkept.map Prod.fst).dedup)
  unfold reconstructSpec
  rw [htops]
  apply List.map_congr_left
  intro k _
  have hrowperm : (specRowCells toks1 k).Perm (specRowCells toks2 k) :=
    (hkept.filter _).map _
  have hsub : ((keptCells toks1).filter (fun c => decide (c.1 = k))).Sublist
      (keptCells toks1) :=
    List.filter_sublist _
  have hpairs : (((keptCells toks1).filter (fun c => decide (c.1 = k))).map
      (fun c => (c.1, c.2.1))).Nodup :=
    List.Nodup.sublist (hsub.map _) hnd
  have hall : ∀ c ∈ (keptCells toks1).filter (fun c => decide (c.1 = k)), c.1 = k := by
    intro c hc
    simpa using (List.mem_filter.mp hc).2
  have hleft : ((((keptCells toks1).filter (fun c => decide (c.1 = k))).map
      (fun c => (c.1, c.2.1))).map Prod.snd).Nodup := by
    apply List.Nodup.map_on ?_ hpairs
    rintro u hu v hv huv
    rcases List.mem_map.mp hu with ⟨cu, hcu, rfl⟩
    rcases List.mem_map.mp hv with ⟨cv, hcv, rfl⟩
    have h1 := hall cu hcu
    have h2 := hall cv hcv
    simp only at huv
    exact Prod.ext (by rw [h1, h2]) huv
  have hnd1 : ((specRowCells toks1 k).map Prod.fst).Nodup := by
    have heq : (specRowCells toks1 k).map Prod.fst =
        ((((keptCells toks1).filter (fun c => decide (c.1 = k))).map
          (fun c => (c.1, c.2.1))).map Prod.snd) := by
      simp [specRowCells, List.map_map, Function.comp]
    rw [heq]
    exact hleft
  congr 1
  exact sortedCells_eq _ _ hrowperm hnd1

/-- Witness for the amended C5: with distinct cell positions the two
orderings reconstruct the same grid. -/
theorem reconstruct_c5_witness :
    extract_table c5toksC = extract_table c5toksD :=
  reconstruct_c5_amended c5toksC c5toksD (List.Perm.swap _ _ _) (by decide)
